import Mathlib

/-!
# NexusFlow — Suggestion Validation & Placement Engine: verification development

A shallow embedding of the suggestion validation and placement pipeline
(`processOutboundBatch`, `generateFinalHtml`, `normalizeUrl`, the density/limit
computation in `runAnalysis`, and the insertion-engine sanitizer), together
with theorems settling the specification claims about them.

Modelling conventions:
* Strings are Lean `String`s; character-level algorithms work on `String.data`
  (`List Char`).  JavaScript string indices are UTF-16 code units; the model
  counts characters, which coincides on ASCII data.
* Case folding (`toLowerCase`, the regex `i` flag) is modelled with Lean's
  ASCII `Char.toLower`.
* The browser DOM is modelled as an ordered tree of element/text nodes
  (`HNode`); `querySelectorAll` enumerates elements in document (pre-)order.
* JavaScript numbers appearing in the modelled code are integers at every
  modelled use site (scores are `Math.round`ed, counts and indices are
  integral), so they are embedded as `Nat`/`Int`.  The readability band
  multiplications `d * 0.3`, `d * 0.5`, `d * 0.8` are embedded as the exact
  rationals `d*3/10`, `d*5/10`, `d*8/10`; for every `d` in `[3,12]` (the full
  range of the clamped base limit) `Math.floor` of the IEEE-double product
  agrees with the exact rational floor, so the embedding is faithful there.
-/

namespace NexusFlow

/-! ## Character and string primitives (JavaScript semantics) -/

/-- ASCII lower-casing of a single character, the model of case folding used by
`toLowerCase()` and by the case-insensitive regex flag on the ASCII fragment. -/
def lowerChar (c : Char) : Char := c.toLower

/-- Lower-case a character list. -/
def lowerList (l : List Char) : List Char := l.map lowerChar

/-- `toLowerCase()` on a string. -/
def lowerStr (s : String) : String := String.mk (lowerList s.data)

/-- The whitespace set of `trim()` (modelled on its ASCII members). -/
def wsChar (c : Char) : Bool := c = ' ' || c = '\t' || c = '\n' || c = '\r'

/-- `trim()`: drop whitespace from both ends. -/
def trimStr (s : String) : String :=
  String.mk (((s.data.dropWhile wsChar).reverse.dropWhile wsChar).reverse)

/-- The position scan shared by `indexOf` and the regex engine: the least
`j ≥ i` with `pred j = true` among the next `fuel` positions. -/
def findIdxFrom (pred : Nat → Bool) : Nat → Nat → Option Nat
  | _, 0 => none
  | i, fuel + 1 => if pred i then some i else findIdxFrom pred (i + 1) fuel

/-- Does the pattern `p` occur in `s` starting at character index `i`?
(The building block of `String.prototype.indexOf` / `includes`.) -/
def matchesAt (p s : List Char) (i : Nat) : Bool :=
  p.isPrefixOf (s.drop i)

/-- Case-insensitive variant of `matchesAt` (regex `i` flag). -/
def ciMatchesAt (p s : List Char) (i : Nat) : Bool :=
  matchesAt (lowerList p) (lowerList s) i

/-- The index of the first occurrence of `p` in `s`, if any: the model of
`String.prototype.indexOf` (as an `Option`).  Scans positions `0..s.length`
left to right, so it returns the least matching index. -/
def firstOccur (p s : List Char) : Option Nat :=
  findIdxFrom (fun i => matchesAt p s i) 0 (s.length + 1)

/-- `String.prototype.includes`. -/
def containsStr (s p : String) : Bool :=
  (firstOccur p.data s.data).isSome

/-- `String.prototype.indexOf` with the JavaScript `-1` not-found convention. -/
def jsIndexOf (full pat : String) : Int :=
  match firstOccur pat.data full.data with
  | some i => (i : Int)
  | none => -1

/-! ## `original_paragraph.replace(/<[^>]+>/g, '')` — tag stripping

The global regex removes every maximal block `<c₁…cₙ>` with `n ≥ 1` and all
`cᵢ ≠ '>'`; a `<` that is immediately followed by `>` (empty body) or that has
no closing `>` at all is kept verbatim. -/

/-- One-pass scanner for the global tag regex.  The first argument buffers (in
reverse) the characters consumed since an `<` that has not yet found its `>`:
when a `>` arrives with a non-empty body the whole block is discarded; a `>`
arriving immediately after the `<`, or the end of input, flushes the buffer
verbatim (the regex body `[^>]+` needs at least one character, and `[^>]`
admits a nested `<`). -/
def stripTagsGo : Option (List Char) → List Char → List Char
  | none, [] => []
  | some buf, [] => buf.reverse
  | none, c :: rest =>
      if c = '<' then stripTagsGo (some [c]) rest
      else c :: stripTagsGo none rest
  | some buf, c :: rest =>
      if c = '>' then
        if 2 ≤ buf.length then stripTagsGo none rest
        else buf.reverse ++ c :: stripTagsGo none rest
      else stripTagsGo (some (c :: buf)) rest

def stripTags (l : List Char) : List Char := stripTagsGo none l

/-- The "clean text" a candidate's claimed paragraph is reduced to before the
locator runs: tags stripped, then whitespace-trimmed
(`s.original_paragraph.replace(/<[^>]+>/g, '').trim()`). -/
def cleanTextOf (p : String) : String :=
  trimStr (String.mk (stripTags p.data))

/-! ## Document model

An ordered tree of element and text nodes, the abstract form of the DOM tree
`processOutboundBatch` walks.  Element attributes are (name, value) pairs. -/

mutual

inductive HNode where
  | elem (tag : String) (attrs : List (String × String)) (children : HForest)
  | text (s : String)

/-- An ordered sequence of sibling nodes (the `children` of an element). -/
inductive HForest where
  | nil
  | cons (head : HNode) (tail : HForest)

end

deriving instance DecidableEq for HNode, HForest

mutual

/-- `Node.textContent`: the concatenation of all descendant text runs. -/
def textContent : HNode → String
  | .text s => s
  | .elem _ _ cs => textContentF cs

def textContentF : HForest → String
  | .nil => ""
  | .cons n ns => textContent n ++ textContentF ns

end

mutual

/-- All nodes of a tree in document (pre-)order, the node itself included. -/
def allNodes : HNode → List HNode
  | .text s => [.text s]
  | .elem t a cs => .elem t a cs :: allNodesF cs

def allNodesF : HForest → List HNode
  | .nil => []
  | .cons n ns => allNodes n ++ allNodesF ns

end

/-- The tag of an element node (text nodes have none). -/
def tagOf : HNode → Option String
  | .elem t _ _ => some t
  | .text _ => none

/-- Build a forest from a list of siblings (concrete-document syntax). -/
def HForest.ofList : List HNode → HForest
  | [] => .nil
  | n :: ns => .cons n (HForest.ofList ns)

/-- The selector used by the candidate locator: `'p, li, td, div'`. -/
def blockTags : List String := ["p", "li", "td", "div"]

/-- `tempDoc.querySelectorAll('p, li, td, div')` — all block-level elements of
the document in document order. -/
def blockNodes (doc : HNode) : List HNode :=
  (allNodes doc).filter (fun n =>
    match tagOf n with
    | some t => blockTags.contains t
    | none => false)

/-- Serialized attribute list: ` name="value"` for each attribute. -/
def attrsString : List (String × String) → String
  | [] => ""
  | (n, v) :: rest => " " ++ n ++ "=\"" ++ v ++ "\"" ++ attrsString rest

mutual

/-- `Element.outerHTML` (modelled serialization; text nodes serialize as their
raw text). -/
def outerHtml : HNode → String
  | .text s => s
  | .elem t a cs => "<" ++ t ++ attrsString a ++ ">" ++ innerHtmlF cs ++ "</" ++ t ++ ">"

def innerHtmlF : HForest → String
  | .nil => ""
  | .cons n ns => outerHtml n ++ innerHtmlF ns

end

/-- `Element.innerHTML`. -/
def innerHtml : HNode → String
  | .text s => s
  | .elem _ _ cs => innerHtmlF cs

/-! ## Candidate locator

For each candidate, every block-level node's `textContent` is tested for
containment of the cleaned claimed paragraph; among the matching nodes the one
with the strictly smallest text length wins (ties keep the earliest match,
mirroring the `text.length < minLength` update). -/

/-- One step of the locator loop: a containing node replaces the running best
only when its text is strictly shorter (`text.length < minLength`), so the
earliest minimal-length containing node wins. -/
def locStep (cleanText : String) (acc : Option HNode) (el : HNode) : Option HNode :=
  if containsStr (textContent el) cleanText then
    match acc with
    | none => some el
    | some best =>
      if (textContent el).length < (textContent best).length then some el
      else acc
  else acc

/-- The locator loop of `processOutboundBatch`: fold over the block nodes,
keeping the first containing node of minimal `textContent` length. -/
def locateNode (doc : HNode) (cleanText : String) : Option HNode :=
  (blockNodes doc).foldl (locStep cleanText) none

/-! ## Insertion engine — the anchor-substitution regex

`new RegExp(`(?<!href=["']|>)(${escapedAnchor})(?![^<]*>)`, 'i')`, applied with
`test` and then first-match `replace`.  `escapeRegExp` makes the anchor a
literal; the `i` flag makes the anchor and the look-behind alternative
`href=["']` match case-insensitively.  The look-behind rejects a match whose
immediately preceding text ends in `>` or in `href="` / `href='`; the
look-ahead rejects a match followed by a `>` before any `<` (i.e. a match
sitting inside a tag's attribute area). -/

/-- Does `suffix` (case-insensitively) end the first `i` characters of `s`? -/
def ciEndsAt (suffix s : List Char) (i : Nat) : Bool :=
  suffix.length ≤ i && ciMatchesAt suffix s (i - suffix.length)

/-- The negative look-behind `(?<!href=["']|>)` evaluated just before
position `i`. -/
def lookbehindOk (s : List Char) (i : Nat) : Bool :=
  !(ciEndsAt ['>'] s i
    || ciEndsAt ['h', 'r', 'e', 'f', '=', '"'] s i
    || ciEndsAt ['h', 'r', 'e', 'f', '=', '\''] s i)

/-- Does the text starting here contain a `>` before any `<` (and before the
end of input)?  This is the body of the negative look-ahead `(?![^<]*>)`. -/
def gtBeforeLt : List Char → Bool
  | [] => false
  | c :: rest =>
    if c = '>' then true
    else if c = '<' then false
    else gtBeforeLt rest

/-- Full eligibility of an anchor match starting at position `i`: the anchor
matches case-insensitively and both look-arounds succeed. -/
def eligibleAt (anchor s : List Char) (i : Nat) : Bool :=
  ciMatchesAt anchor s i
    && lookbehindOk s i
    && !gtBeforeLt (s.drop (i + anchor.length))

/-- The position of the regex's match: the least eligible position, scanning
left to right as the JavaScript engine does. -/
def findEligible (anchor s : List Char) : Option Nat :=
  findIdxFrom (fun i => eligibleAt anchor s i) 0 (s.length + 1)

/-- The wrapped fragment `<a href="${target_url}">${anchor_text}</a>`. -/
def anchorHtml (anchor url : String) : String :=
  "<a href=\"" ++ url ++ "\">" ++ anchor ++ "</a>"

/-- `regex.test(newInnerHtml)` followed by the first-match
`newInnerHtml.replace(regex, anchorHtml)`: `none` when the regex finds no
eligible occurrence, otherwise the inner markup with the matched span (which
has the anchor's length) spliced out for the wrapped fragment.  The
replacement text is spliced literally; `$`-escape sequences in it are not
modelled. -/
def insertAnchor (anchor url inner : String) : Option String :=
  match findEligible anchor.data inner.data with
  | none => none
  | some i =>
      some (String.mk
        (inner.data.take i
          ++ (anchorHtml anchor url).data
          ++ inner.data.drop (i + anchor.length)))

/-! ## Insertion engine — sanitizer

After the substitution the clone is cleaned: every element of a banned type is
removed (`querySelectorAll(bannedTags.join(',')).remove()`), then every
attribute other than `href` is stripped from every remaining element, the root
included. -/

/-- The `bannedTags` list of `processOutboundBatch`. -/
def bannedTags : List String :=
  ["img", "video", "audio", "iframe", "object", "embed", "picture", "svg",
   "script", "style", "link", "meta", "input", "form", "button"]

mutual

/-- Remove every descendant element whose tag is banned (together with its
subtree, as `Element.remove()` does). -/
def removeBanned : HNode → HNode
  | .text s => .text s
  | .elem t a cs => .elem t a (removeBannedF cs)

def removeBannedF : HForest → HForest
  | .nil => .nil
  | .cons (.text s) ns => .cons (.text s) (removeBannedF ns)
  | .cons (.elem t a cs) ns =>
      if bannedTags.contains t then removeBannedF ns
      else .cons (.elem t a (removeBannedF cs)) (removeBannedF ns)

end

mutual

/-- Strip from every element (root included) every attribute whose lower-cased
name is not `href`. -/
def stripAttrs : HNode → HNode
  | .text s => .text s
  | .elem t a cs => .elem t (a.filter (fun p => lowerStr p.1 == "href")) (stripAttrsF cs)

def stripAttrsF : HForest → HForest
  | .nil => .nil
  | .cons n ns => .cons (stripAttrs n) (stripAttrsF ns)

end

/-- The full cleaning pass applied to the clone before its `outerHTML` is
recorded as `paragraph_with_link`. -/
def sanitizeNode (n : HNode) : HNode := stripAttrs (removeBanned n)

/-- The element nodes of a tree (for stating what the sanitizer's output may
contain). -/
def elemNodes (n : HNode) : List HNode :=
  (allNodes n).filter (fun m => (tagOf m).isSome)

/-! ## `normalizeUrl`

The source first tries `new URL(urlString)`; on success it returns
`origin.toLowerCase() + pathname.toLowerCase()` with one trailing slash
stripped from the pathname when it is longer than `"/"`.  When the constructor
throws (every scheme-less string, e.g. a bare path) the fallback
`urlString.toLowerCase().split('?')[0].replace(/\/$/, '')` runs.  The parser is
modelled for absolute `http`/`https` URLs of the shape
`scheme://host[/path][?query][#fragment]`; all other strings take the fallback
branch (in particular every string starting with `/`, for which the real
constructor throws as well). -/

/-- Split an absolute http(s) URL into `(origin, pathname)`. -/
def parseUrl (s : String) : Option (String × String) :=
  let lower := lowerStr s
  let pick (scheme : String) : Option (String × String) :=
    let pre := scheme ++ "://"
    if pre.data.isPrefixOf lower.data then
      let rest := s.data.drop pre.length
      let host := rest.takeWhile (fun c => c ≠ '/' && c ≠ '?' && c ≠ '#')
      let tail := rest.dropWhile (fun c => c ≠ '/' && c ≠ '?' && c ≠ '#')
      if host.isEmpty then none
      else
        let path := tail.takeWhile (fun c => c ≠ '?' && c ≠ '#')
        let pathname := if path.isEmpty then "/" else String.mk path
        some (scheme ++ "://" ++ String.mk host, pathname)
    else none
  match pick "https" with
  | some r => some r
  | none => pick "http"

/-- The prefix of `s` before the first `?` (`split('?')[0]`). -/
def beforeQuery (s : String) : String :=
  String.mk (s.data.takeWhile (· ≠ '?'))

/-- `replace(/\/$/, '')`: remove a single trailing slash when present. -/
def dropOneTrailingSlash (s : String) : String :=
  if s.data.getLast? = some '/' then String.mk s.data.dropLast else s

/-- `normalizeUrl` from the source. -/
def normalizeUrl (s : String) : String :=
  if s.isEmpty then ""
  else
    match parseUrl s with
    | some (origin, pathname) =>
        let p := lowerStr pathname
        let p :=
          if 1 < p.length && p.data.getLast? = some '/' then String.mk p.data.dropLast
          else p
        lowerStr origin ++ p
    | none => dropOneTrailingSlash (beforeQuery (lowerStr s))

/-! ## The suggestion pipeline of `processOutboundBatch`

The model starts at the point where the scored candidate list is in hand (the
model call and score boosting are upstream of every claimed property) and
covers: the required-field filter, the locator loop, the anchor regex test and
substitution, the merge with previously accepted suggestions, the greedy
deduplication pass, and the final by-position sort. -/

structure Suggestion where
  anchor_text : String
  target_url : String
  original_paragraph : String
  paragraph_with_link : String
  internal_link_score : Int
deriving Repr, DecidableEq

/-- The `validNew` filter: every one of the four text fields must be truthy,
i.e. non-empty. -/
def validFields (s : Suggestion) : Bool :=
  !s.anchor_text.isEmpty && !s.target_url.isEmpty
    && !s.original_paragraph.isEmpty && !s.paragraph_with_link.isEmpty

/-- One trip of the locator/insertion loop body for a single candidate:
`none` when the candidate is dropped (clean text shorter than 10 characters,
no containing node, or no eligible anchor occurrence), otherwise the updated
candidate whose `original_paragraph` has been replaced by the located node's
`outerHTML` and whose `paragraph_with_link` holds the substituted (root
attributes stripped) markup.  Descendant sanitization of the re-parsed
fragment is modelled separately by `sanitizeNode`; no claimed property reads
the carried markup. -/
def mapOne (doc : HNode) (s : Suggestion) : Option Suggestion :=
  if (cleanTextOf s.original_paragraph).length < 10 then none
  else
    match locateNode doc (cleanTextOf s.original_paragraph) with
    | none => none
    | some el =>
        match insertAnchor s.anchor_text s.target_url (innerHtml el) with
        | none => none
        | some newInner =>
            some { s with
              original_paragraph := outerHtml el,
              paragraph_with_link :=
                match tagOf el with
                | some t => "<" ++ t ++ ">" ++ newInner ++ "</" ++ t ++ ">"
                | none => newInner }

/-- The locator/insertion stage over the whole candidate list. -/
def mapStage (doc : HNode) (cands : List Suggestion) : List Suggestion :=
  (cands.filter validFields).filterMap (mapOne doc)

/-- Stable insertion for the descending by-score sort
(`sort((a, b) => b.internal_link_score - a.internal_link_score)`; the
JavaScript sort is stable, so equal scores keep their original order). -/
def insertByScore (x : Suggestion) : List Suggestion → List Suggestion
  | [] => [x]
  | y :: ys =>
      if y.internal_link_score ≤ x.internal_link_score then x :: y :: ys
      else y :: insertByScore x ys

/-- Stable descending-by-score sort of the merged suggestion list. -/
def sortByScoreDesc (l : List Suggestion) : List Suggestion :=
  l.foldr insertByScore []

/-- `MIN_SUGGESTION_DISTANCE_CHARS`. -/
def minSuggestionDistanceChars : Nat := 250

/-- The dedup key for anchors: `anchor_text.toLowerCase().trim()`. -/
def anchorKey (s : Suggestion) : String := trimStr (lowerStr s.anchor_text)

/-- The dedup key for targets: `normalizeUrl(target_url)`. -/
def targetKey (s : Suggestion) : String := normalizeUrl s.target_url

/-- The character interval claimed by a suggestion in the original document:
`[indexOf(original_paragraph), indexOf + length)`, `none` when the paragraph
does not occur. -/
def intervalOf (full : String) (s : Suggestion) : Option (Nat × Nat) :=
  match firstOccur s.original_paragraph.data full.data with
  | none => none
  | some i => some (i, i + s.original_paragraph.length)

/-- `Math.max(0, newStart - pos.end, pos.start - newEnd)` — the gap between
the closest edges of two intervals (`0` when they overlap).  Truncated `Nat`
subtraction realizes the clamping at `0`. -/
def intervalGap (p q : Nat × Nat) : Nat :=
  max (q.1 - p.2) (p.1 - q.2)

/-- The state threaded through the greedy dedup pass: the three membership
sets `seenAnchors`, `seenTargets`, `acceptedPositions`. -/
structure DedupState where
  anchors : List String
  targets : List String
  positions : List (Nat × Nat)

/-- The admission test of the dedup loop against a given state: fresh anchor
key, fresh target key, an occurrence of the paragraph in the document, and no
accepted interval within the minimum distance. -/
def admitsState (full : String) (st : DedupState) (s : Suggestion) : Bool :=
  !st.anchors.contains (anchorKey s)
    && !st.targets.contains (targetKey s)
    && match intervalOf full s with
       | none => false
       | some iv => !st.positions.any (fun p => intervalGap p iv < minSuggestionDistanceChars)

/-- The interval recorded by the dedup loop for an admitted suggestion
(admission guarantees `intervalOf` is `some`; the default is never read). -/
def intervalD (full : String) (s : Suggestion) : Nat × Nat :=
  (intervalOf full s).getD (0, 0)

/-- The membership-set extension performed when a suggestion is admitted
(`seenAnchors.add`, `seenTargets.add`, `acceptedPositions.push`). -/
def pushState (full : String) (st : DedupState) (s : Suggestion) : DedupState :=
  ⟨anchorKey s :: st.anchors, targetKey s :: st.targets, intervalD full s :: st.positions⟩

/-- The greedy deduplication pass (`for (const suggestion of allCombined)`):
a suggestion passing the admission test (the conjunction of the loop body's
three `continue` tests) is kept and extends the three membership sets; a
rejected suggestion is skipped with the state untouched. -/
def dedupeGo (full : String) : List Suggestion → DedupState → List Suggestion
  | [], _ => []
  | s :: rest, st =>
      if admitsState full st s then
        s :: dedupeGo full rest (pushState full st s)
      else dedupeGo full rest st

/-- The dedup pass started from empty membership sets. -/
def dedupeRun (full : String) (l : List Suggestion) : List Suggestion :=
  dedupeGo full l ⟨[], [], []⟩

/-- The membership sets held by the dedup loop after it has processed a list. -/
def stateAfter (full : String) : List Suggestion → DedupState → DedupState
  | [], st => st
  | s :: rest, st =>
      stateAfter full rest (if admitsState full st s then pushState full st s else st)

/-- Mutual compatibility of two accepted suggestions, as the invariant claims
it: distinct case-insensitive trimmed anchors, distinct normalized targets,
and (whenever both claimed intervals exist) closest-edge gap of at least the
minimum distance and no overlap. -/
def SuggCompat (full : String) (a b : Suggestion) : Prop :=
  anchorKey a ≠ anchorKey b ∧ targetKey a ≠ targetKey b ∧
    ∀ ia ib, intervalOf full a = some ia → intervalOf full b = some ib →
      minSuggestionDistanceChars ≤ intervalGap ia ib ∧ (ia.2 ≤ ib.1 ∨ ib.2 ≤ ia.1)

/-- Decidable pairwise version of the three dedup conditions, used to phrase
the claim's "maximal prefix satisfying all of" reading. -/
def pairOk (full : String) (a b : Suggestion) : Bool :=
  (anchorKey a != anchorKey b) && (targetKey a != targetKey b)
    && match intervalOf full a, intervalOf full b with
       | some ia, some ib => !(intervalGap ia ib < minSuggestionDistanceChars)
       | _, _ => true

/-- All unordered pairs of a list satisfy `pairOk`. -/
def allPairsOk (full : String) : List Suggestion → Bool
  | [] => true
  | x :: xs => xs.all (fun y => pairOk full x y) && allPairsOk full xs

/-- The longest prefix of the list all of whose pairs satisfy the three dedup
conditions.  (Stated from the claim's words — "the maximal prefix of this
sorted list that satisfies all of ..." — for comparison with the greedy
pass.) -/
def maximalPrefixModel (full : String) (l : List Suggestion) : List Suggestion :=
  l.take
    (((List.range (l.length + 1)).filter (fun k => allPairsOk full (l.take k))).foldl
      max 0)

/-- Stable insertion for the final ascending by-position sort
(`sort((a, b) => indexOf(a.original_paragraph) - indexOf(b.original_paragraph))`). -/
def insertByPos (full : String) (x : Suggestion) : List Suggestion → List Suggestion
  | [] => [x]
  | y :: ys =>
      if jsIndexOf full x.original_paragraph ≤ jsIndexOf full y.original_paragraph then
        x :: y :: ys
      else y :: insertByPos full x ys

/-- The final by-position sort of the accepted list. -/
def sortByPos (full : String) (l : List Suggestion) : List Suggestion :=
  l.foldr (insertByPos full) []

/-- The validation/placement pipeline of `processOutboundBatch`, from the
scored candidate list to the returned accepted list: locator + anchor
substitution per candidate, merge with the already-accepted suggestions,
stable descending sort by score, greedy deduplication, final sort by document
position. -/
def processOutboundBatch (doc : HNode) (fullMainArticleHtml : String)
    (existingSuggestions cands : List Suggestion) : List Suggestion :=
  sortByPos fullMainArticleHtml
    (dedupeRun fullMainArticleHtml
      (sortByScoreDesc (existingSuggestions ++ mapStage doc cands)))

/-! ## `generateFinalHtml`

Accepted suggestions are applied to the whole-document string with
`html.replace(original_paragraph, paragraph_with_link)` — a string-pattern
`replace`, which substitutes the first occurrence only and leaves the string
unchanged when the pattern does not occur.  The replacement is spliced
literally; `$`-escape sequences in it are not modelled. -/

/-- `html.replace(pat, repl)` with a string pattern. -/
def jsReplaceFirst (html pat repl : String) : String :=
  match firstOccur pat.data html.data with
  | none => html
  | some i => String.mk (html.data.take i ++ repl.data ++ html.data.drop (i + pat.length))

/-- The per-suggestion application step inside `generateFinalHtml`'s loop:
accepted suggestions rewrite the document, others leave it alone. -/
def applySuggestion (accepted : Bool) (html : String) (s : Suggestion) : String :=
  if accepted then jsReplaceFirst html s.original_paragraph s.paragraph_with_link
  else html

/-- `generateFinalHtml`: fold the application step over the suggestion list,
consulting each suggestion's acceptance status. -/
def generateFinalHtml (html : String) (suggs : List (Suggestion × Bool)) : String :=
  suggs.foldl (fun h p => applySuggestion p.2 h p.1) html

/-! ## The target output count of `runAnalysis`

`recommendedTotal = Math.max(3, Math.ceil(wordCount / 200))`,
`slotsAvailable = Math.max(0, recommendedTotal - internalLinksCount)`,
`dynamicLimit = Math.max(3, Math.min(slotsAvailable, 12))`, then the
readability bands reduce the limit (`readability.score` is an integer:
the source rounds it with `Math.round`). -/

def recommendedTotal (wordCount : Nat) : Nat :=
  max 3 ((wordCount + 199) / 200)

/-- `Math.max(0, recommendedTotal - internalLinksCount)` (truncated `Nat`
subtraction realizes the clamp at `0`). -/
def slotsAvailable (wordCount links : Nat) : Nat :=
  recommendedTotal wordCount - links

/-- The clamped base limit before the readability bands; always in `[3, 12]`. -/
def baseLimit (wordCount links : Nat) : Nat :=
  max 3 (min (slotsAvailable wordCount links) 12)

/-- The readability band reduction.  `d * 3 / 10` etc. are the exact values of
`Math.floor(d * 0.3)` etc. for every `d` in `[3, 12]`. -/
def bandReduce (d : Nat) (score : Int) : Nat :=
  if score < 30 then max 3 (d * 3 / 10)
  else if score < 50 then max 3 (d * 5 / 10)
  else if score < 60 then max 4 (d * 8 / 10)
  else d

/-- The target output count (`dynamicLimit`) as a function of the document
word count, the existing in-content internal link count, and the rounded
readability score. -/
def dynamicLimit (wordCount links : Nat) (score : Int) : Nat :=
  bandReduce (baseLimit wordCount links) score

/-- The count formula as the claim words it: word count over the
words-per-link constant, clamped to the configured minimum and maximum —
with no dependence on the existing-link count.  (Stated from the claim's
words, for comparison with `dynamicLimit`.) -/
def claimedCount (wordCount : Nat) : Nat :=
  max 3 (min ((wordCount + 199) / 200) 12)

/-- The attributes of a node (text nodes have none). -/
def attrsOf : HNode → List (String × String)
  | .elem _ a _ => a
  | .text _ => []

/-- All positions at which the anchor occurs case-insensitively in a string
(for exhibiting where a concrete anchor can match). -/
def ciOccurrences (p s : String) : List Nat :=
  (List.range (s.data.length + 1)).filter (fun i => ciMatchesAt p.data s.data i)

/-- The per-element cleanliness the sanitization claim asserts of the
insertion engine's output: no banned tag, and no attribute other than (any
capitalization of) `href`. -/
def CleanElem (m : HNode) : Prop :=
  (∀ t, tagOf m = some t → bannedTags.contains t = false) ∧
    ∀ pr ∈ attrsOf m, lowerStr pr.1 = "href"

/-! ### Concrete fixtures used by counterexamples and witnesses -/

/-- A document whose one paragraph reads `Pricing Plans are flexible`. -/
def sampleDoc : HNode :=
  HNode.elem "body" [] (HForest.ofList
    [HNode.elem "p" [] (HForest.ofList [HNode.text "Pricing Plans are flexible"])])

/-- The serialized form of `sampleDoc`'s paragraph, as the whole-document
string. -/
def sampleFull : String := "<p>Pricing Plans are flexible</p>"

/-- A candidate whose anchor text matches the paragraph only up to letter
case. -/
def sampleCand : Suggestion :=
  ⟨"pricing plans", "http://ex.com/pricing", "Pricing Plans are flexible", "pw", 50⟩

/-- A document string with three paragraphs: the second begins immediately
after the first (gap `0`), the third begins `250` characters after the second
ends. -/
def dedupFull : String :=
  "<p>alpha paragraph one</p><p>beta paragraph two</p>"
    ++ String.mk (List.replicate 250 'x') ++ "<p>gamma paragraph three</p>"

def dedupA : Suggestion := ⟨"anchor alpha", "/ta", "<p>alpha paragraph one</p>", "pa", 90⟩

def dedupB : Suggestion := ⟨"anchor beta", "/tb", "<p>beta paragraph two</p>", "pb", 80⟩

def dedupC : Suggestion := ⟨"anchor gamma", "/tc", "<p>gamma paragraph three</p>", "pc", 70⟩

/-!
# Theorems

Generic lemmas about the search and sort primitives first, then the claim
theorems with their witnesses and counterexamples.
-/

/-! ## The position scan -/

theorem findIdxFrom_spec_some {pred : Nat → Bool} :
    ∀ {fuel i j : Nat}, findIdxFrom pred i fuel = some j →
      pred j = true ∧ i ≤ j ∧ ∀ k, i ≤ k → k < j → pred k = false := by
  intro fuel
  induction fuel with
  | zero => intro i j h; simp [findIdxFrom] at h
  | succ n ih =>
    intro i j h
    simp only [findIdxFrom] at h
    by_cases hp : pred i = true
    · rw [if_pos hp] at h
      cases h
      exact ⟨hp, Nat.le_refl _, fun k hk1 hk2 => absurd hk1 (by omega)⟩
    · rw [if_neg hp] at h
      obtain ⟨hj, hij, hmin⟩ := ih h
      refine ⟨hj, by omega, fun k hk1 hk2 => ?_⟩
      rcases Nat.eq_or_lt_of_le hk1 with heq | hlt
      · subst heq; exact Bool.eq_false_iff.mpr hp
      · exact hmin k (by omega) hk2

theorem findIdxFrom_spec_none {pred : Nat → Bool} :
    ∀ {fuel i : Nat}, findIdxFrom pred i fuel = none →
      ∀ k, i ≤ k → k < i + fuel → pred k = false := by
  intro fuel
  induction fuel with
  | zero => intro i _ k hk1 hk2; omega
  | succ n ih =>
    intro i h k hk1 hk2
    simp only [findIdxFrom] at h
    by_cases hp : pred i = true
    · rw [if_pos hp] at h; cases h
    · rw [if_neg hp] at h
      rcases Nat.eq_or_lt_of_le hk1 with heq | hlt
      · subst heq; exact Bool.eq_false_iff.mpr hp
      · exact ih h k (by omega) (by omega)

/-! ## First-occurrence search -/

theorem firstOccur_spec_some {p s : List Char} {i : Nat}
    (h : firstOccur p s = some i) :
    matchesAt p s i = true ∧ ∀ j, j < i → matchesAt p s j = false := by
  obtain ⟨h1, _, h3⟩ := findIdxFrom_spec_some h
  exact ⟨h1, fun j hj => h3 j (Nat.zero_le _) hj⟩

theorem matchesAt_decompose {p s : List Char} {i : Nat}
    (h : matchesAt p s i = true) : ∃ rest, s.drop i = p ++ rest := by
  have hpre : p <+: s.drop i := by
    simpa [matchesAt, List.isPrefixOf_iff_prefix] using h
  obtain ⟨rest, hrest⟩ := hpre
  exact ⟨rest, hrest.symm⟩

theorem firstOccur_spec_none {p s : List Char} (h : firstOccur p s = none) :
    ∀ j, matchesAt p s j = false := by
  intro j
  by_cases hj : j ≤ s.length
  · exact findIdxFrom_spec_none h j (Nat.zero_le _) (by omega)
  · have hstop : s.drop j = [] := List.drop_eq_nil_of_le (by omega)
    have hne : p ≠ [] := by
      intro hp
      have h0 : matchesAt p s 0 = true := by
        simp [matchesAt, hp, List.isPrefixOf]
      have := findIdxFrom_spec_none h 0 (Nat.le_refl _) (by omega)
      rw [this] at h0
      cases h0
    cases hp : p with
    | nil => exact absurd hp hne
    | cons c cs => simp [matchesAt, hstop, hp, List.isPrefixOf]

/-! ## Claim C10 — final document assembly -/

/-- C10: `generateFinalHtml` applies each accepted suggestion by replacing
only the first occurrence of its original paragraph markup in the
whole-document string: the text before the first occurrence (which contains no
earlier occurrence) and the text after it — later occurrences included — are
copied verbatim; a suggestion whose paragraph does not occur, or which is not
accepted, leaves the document unchanged. -/
theorem generateFinalHtml_first_occurrence_only (html : String) (s : Suggestion) :
    (firstOccur s.original_paragraph.data html.data = none →
      generateFinalHtml html [(s, true)] = html) ∧
    (∀ i, firstOccur s.original_paragraph.data html.data = some i →
      generateFinalHtml html [(s, true)]
          = String.mk (html.data.take i ++ s.paragraph_with_link.data
              ++ html.data.drop (i + s.original_paragraph.length)) ∧
        (∃ rest, html.data.drop i = s.original_paragraph.data ++ rest) ∧
        ∀ j, j < i → matchesAt s.original_paragraph.data html.data j = false) ∧
    (generateFinalHtml html [(s, false)] = html) := by
  refine ⟨fun hnone => ?_, fun i hsome => ?_, ?_⟩
  · simp [generateFinalHtml, applySuggestion, jsReplaceFirst, hnone]
  · obtain ⟨hmatch, hmin⟩ := firstOccur_spec_some hsome
    refine ⟨by simp [generateFinalHtml, applySuggestion, jsReplaceFirst, hsome],
      matchesAt_decompose hmatch, hmin⟩
  · simp [generateFinalHtml, applySuggestion]

/-- Witness for C10 at a concrete document in which the paragraph occurs
twice: only the first copy is rewritten, and a non-occurring paragraph leaves
the document untouched. -/
theorem generateFinalHtml_first_occurrence_only_witness :
    generateFinalHtml "<p>dup</p><p>dup</p>" [(⟨"a", "u", "<p>dup</p>", "<p>DUP</p>", 1⟩, true)]
        = "<p>DUP</p><p>dup</p>" ∧
      generateFinalHtml "<p>xyz</p>" [(⟨"a", "u", "<p>dup</p>", "<p>DUP</p>", 1⟩, true)]
        = "<p>xyz</p>" := by
  constructor
  · have h := (generateFinalHtml_first_occurrence_only "<p>dup</p><p>dup</p>"
      ⟨"a", "u", "<p>dup</p>", "<p>DUP</p>", 1⟩).2.1 0 (by decide)
    exact h.1.trans (by decide)
  · exact (generateFinalHtml_first_occurrence_only "<p>xyz</p>"
      ⟨"a", "u", "<p>dup</p>", "<p>DUP</p>", 1⟩).1 (by decide)

/-! ## Claim C8 — the target output count -/

theorem baseLimit_bounds (wc links : Nat) :
    3 ≤ baseLimit wc links ∧ baseLimit wc links ≤ 12 :=
  ⟨Nat.le_max_left 3 _,
   max_le (by norm_num) (min_le_right _ _)⟩

theorem bandReduce_mono {d : Nat} (h4 : 4 ≤ d) (h12 : d ≤ 12)
    {s1 s2 : Int} (hs : s1 ≤ s2) : bandReduce d s1 ≤ bandReduce d s2 := by
  unfold bandReduce
  interval_cases d <;> split_ifs <;> first | rfl | omega

theorem bandReduce_le {d : Nat} (h4 : 4 ≤ d) (h12 : d ≤ 12) (s : Int) :
    bandReduce d s ≤ d := by
  unfold bandReduce
  interval_cases d <;> split_ifs <;> decide

/-- C8 counterexample: with a 100-word document and no existing links the base
limit is 3, and a readability score of 59 (lower) produces a target count of 4
while a score of 60 (higher) produces 3 — a lower readability score yields a
*larger* count, and the band reduction *raises* the count above its base.
Moreover with 100 existing internal links in a 2000-word document the computed
count is 3, not the links-independent clamped value 10 the claim's formula
gives. -/
theorem dynamicLimit_counterexample :
    dynamicLimit 100 0 59 = 4 ∧ dynamicLimit 100 0 60 = 3 ∧
      (59 : Int) < 60 ∧
      dynamicLimit 2000 100 70 = 3 ∧ claimedCount 2000 = 10 := by
  decide

/-- C8 (amended): the target count is the word count divided by 200, clamped
through `max 3 (min (recommendedTotal - links) 12)` — the existing-link count
is subtracted before clamping — and the readability bands only reduce it
further and are monotone in the score *provided the base limit is at least 4*;
at base limit 3 the 50–59 band's `max(4, ...)` floor raises the count to 4. -/
theorem dynamicLimit_amended :
    (∀ wc links : Nat, ∀ s1 s2 : Int, s1 ≤ s2 → 4 ≤ baseLimit wc links →
      dynamicLimit wc links s1 ≤ dynamicLimit wc links s2) ∧
    (∀ wc links : Nat, ∀ s : Int, 4 ≤ baseLimit wc links →
      dynamicLimit wc links s ≤ baseLimit wc links) ∧
    (∀ wc links : Nat, ∀ s : Int, 60 ≤ s →
      dynamicLimit wc links s = max 3 (min (recommendedTotal wc - links) 12)) := by
  refine ⟨fun wc links s1 s2 hs h4 => ?_, fun wc links s h4 => ?_, fun wc links s hs => ?_⟩
  · exact bandReduce_mono h4 (baseLimit_bounds wc links).2 hs
  · exact bandReduce_le h4 (baseLimit_bounds wc links).2 s
  · show bandReduce (baseLimit wc links) s = _
    unfold bandReduce
    split_ifs <;> first | rfl | omega

/-- Witness for C8 (amended) at word count 5000, 2 existing links, scores 40
and 55. -/
theorem dynamicLimit_amended_witness :
    dynamicLimit 5000 2 40 ≤ dynamicLimit 5000 2 55 ∧
      dynamicLimit 5000 2 40 ≤ baseLimit 5000 2 ∧
      dynamicLimit 5000 2 60 = max 3 (min (recommendedTotal 5000 - 2) 12) :=
  ⟨dynamicLimit_amended.1 5000 2 40 55 (by decide) (by decide),
   dynamicLimit_amended.2.1 5000 2 40 (by decide),
   dynamicLimit_amended.2.2 5000 2 60 (by decide)⟩

/-! ## Claim C9 — URL normalization -/

theorem takeWhile_of_all {p : Char → Bool} {l : List Char}
    (h : ∀ c ∈ l, p c = true) : l.takeWhile p = l :=
  List.takeWhile_eq_self_iff.mpr h

/-- C9 counterexample: `/a//` and `/a/` differ only by one trailing slash
(the first literally is the second with `/` appended), yet their normalized
forms differ, because the fallback regex `\/$` strips a single trailing slash
only. -/
theorem normalizeUrl_counterexample :
    "/a//" = "/a/" ++ "/" ∧ normalizeUrl "/a//" = "/a/" ∧
      normalizeUrl "/a/" = "/a" ∧ normalizeUrl "/a//" ≠ normalizeUrl "/a/" := by
  decide

/-- C9 (amended): normalization lower-cases and strips at most one trailing
slash, so two scheme-less URL strings (handled by the fallback branch, no
query part) whose lower-cased forms are equal, or differ by exactly one
trailing slash added to a form not already ending in a slash, normalize
equally. -/
theorem normalizeUrl_amended (p q : String)
    (hp0 : p ≠ "") (hq0 : q ≠ "")
    (hpu : parseUrl p = none) (hqu : parseUrl q = none)
    (hpq : ∀ c ∈ (lowerStr p).data, c ≠ '?')
    (hqq : ∀ c ∈ (lowerStr q).data, c ≠ '?')
    (hrel : lowerStr q = lowerStr p ∨
      ((lowerStr q).data = (lowerStr p).data ++ ['/'] ∧
        (lowerStr p).data.getLast? ≠ some '/')) :
    normalizeUrl p = normalizeUrl q := by
  have hpe : p.isEmpty = false := by
    rcases h : p.isEmpty with _ | _
    · rfl
    · exact absurd ((String.isEmpty_iff p).mp h) hp0
  have hqe : q.isEmpty = false := by
    rcases h : q.isEmpty with _ | _
    · rfl
    · exact absurd ((String.isEmpty_iff q).mp h) hq0
  have hbq : beforeQuery (lowerStr p) = lowerStr p := by
    unfold beforeQuery
    rw [takeWhile_of_all (fun c hc => by simpa using hpq c hc)]
  have hbq2 : beforeQuery (lowerStr q) = lowerStr q := by
    unfold beforeQuery
    rw [takeWhile_of_all (fun c hc => by simpa using hqq c hc)]
  unfold normalizeUrl
  rw [if_neg (by simp [hpe]), if_neg (by simp [hqe]), hpu, hqu]
  show dropOneTrailingSlash (beforeQuery (lowerStr p))
      = dropOneTrailingSlash (beforeQuery (lowerStr q))
  rw [hbq, hbq2]
  rcases hrel with heq | ⟨happ, hlast⟩
  · rw [heq]
  · unfold dropOneTrailingSlash
    rw [if_neg (by simpa using hlast), if_pos (by rw [happ]; simp)]
    rw [happ, List.dropLast_concat]

/-- Witness for C9 (amended) at the spec's own example pair: `/Page/` and
`/page` normalize equally. -/
theorem normalizeUrl_amended_witness :
    normalizeUrl "/page" = normalizeUrl "/Page/" :=
  normalizeUrl_amended "/page" "/Page/" (by decide) (by decide) (by decide)
    (by decide) (by decide) (by decide)
    (Or.inr ⟨by decide, by decide⟩)

/-! ## Sorting passes: permutation lemmas -/

theorem insertByScore_perm (x : Suggestion) :
    ∀ l : List Suggestion, List.Perm (insertByScore x l) (x :: l) := by
  intro l
  induction l with
  | nil => simp [insertByScore]
  | cons y ys ih =>
      unfold insertByScore
      split_ifs
      · exact List.Perm.refl _
      · exact (List.Perm.cons y ih).trans (List.Perm.swap x y ys)

theorem sortByScoreDesc_perm :
    ∀ l : List Suggestion, List.Perm (sortByScoreDesc l) l := by
  intro l
  induction l with
  | nil => simp [sortByScoreDesc]
  | cons y ys ih =>
      have h : sortByScoreDesc (y :: ys) = insertByScore y (sortByScoreDesc ys) := rfl
      rw [h]
      exact (insertByScore_perm y _).trans (List.Perm.cons y ih)

theorem insertByPos_perm (full : String) (x : Suggestion) :
    ∀ l : List Suggestion, List.Perm (insertByPos full x l) (x :: l) := by
  intro l
  induction l with
  | nil => simp [insertByPos]
  | cons y ys ih =>
      unfold insertByPos
      split_ifs
      · exact List.Perm.refl _
      · exact (List.Perm.cons y ih).trans (List.Perm.swap x y ys)

theorem sortByPos_perm (full : String) :
    ∀ l : List Suggestion, List.Perm (sortByPos full l) l := by
  intro l
  induction l with
  | nil => simp [sortByPos]
  | cons y ys ih =>
      have h : sortByPos full (y :: ys) = insertByPos full y (sortByPos full ys) := rfl
      rw [h]
      exact (insertByPos_perm full y _).trans (List.Perm.cons y ih)

/-! ## The greedy dedup pass: unfolding, invariant, pairwise lemmas -/

/-- The admission test unpacked: fresh anchor key, fresh target key, an
occurring paragraph, and minimum distance to every accepted interval. -/
theorem admitsState_iff {full : String} {st : DedupState} {s : Suggestion} :
    admitsState full st s = true ↔
      st.anchors.contains (anchorKey s) = false ∧
      st.targets.contains (targetKey s) = false ∧
      ∃ iv, intervalOf full s = some iv ∧
        ∀ p ∈ st.positions, minSuggestionDistanceChars ≤ intervalGap p iv := by
  unfold admitsState
  cases h2 : intervalOf full s with
  | none =>
      simp
  | some iv =>
      simp only [Bool.and_eq_true, Bool.not_eq_true', List.any_eq_false,
        decide_eq_true_eq, Option.some.injEq]
      constructor
      · rintro ⟨⟨ha, ht⟩, hpos⟩
        exact ⟨ha, ht, iv, rfl, fun p hp => Nat.le_of_not_lt (hpos p hp)⟩
      · rintro ⟨ha, ht, iv', hiv', hpos⟩
        cases hiv'
        exact ⟨⟨ha, ht⟩, fun p hp => Nat.not_lt_of_le (hpos p hp)⟩

theorem dedupeGo_cons_skip {full : String} {st : DedupState} {s : Suggestion}
    (h : admitsState full st s = false) (rest : List Suggestion) :
    dedupeGo full (s :: rest) st = dedupeGo full rest st := by
  simp [dedupeGo, h]

theorem dedupeGo_cons_accept {full : String} {st : DedupState} {s : Suggestion}
    (h : admitsState full st s = true) (rest : List Suggestion) :
    dedupeGo full (s :: rest) st = s :: dedupeGo full rest (pushState full st s) := by
  simp [dedupeGo, h]

theorem dedupeGo_sublist (full : String) :
    ∀ (l : List Suggestion) (st : DedupState), (dedupeGo full l st).Sublist l := by
  intro l
  induction l with
  | nil => intro st; simp [dedupeGo]
  | cons s rest ih =>
      intro st
      cases h : admitsState full st s with
      | false => rw [dedupeGo_cons_skip h]; exact (ih st).cons s
      | true => rw [dedupeGo_cons_accept h]; exact (ih _).cons₂ s

/-- Everything the dedup pass emits is fresh with respect to the state it was
started from: its paragraph occurs, its keys are absent from the membership
sets, and it clears every accepted interval by the minimum distance. -/
theorem dedupeGo_mem_props (full : String) :
    ∀ (l : List Suggestion) (st : DedupState), ∀ y ∈ dedupeGo full l st,
      (intervalOf full y).isSome = true ∧
      st.anchors.contains (anchorKey y) = false ∧
      st.targets.contains (targetKey y) = false ∧
      ∀ p ∈ st.positions,
        minSuggestionDistanceChars ≤ intervalGap p (intervalD full y) := by
  intro l
  induction l with
  | nil => intro st y hy; simp [dedupeGo] at hy
  | cons s rest ih =>
      intro st y hy
      cases h : admitsState full st s with
      | false =>
          rw [dedupeGo_cons_skip h] at hy
          exact ih st y hy
      | true =>
          rw [dedupeGo_cons_accept h] at hy
          obtain ⟨hanchors, htargets, iv, hiv, hpos⟩ := admitsState_iff.mp h
          rcases List.mem_cons.mp hy with rfl | hy
          · exact ⟨by simp [hiv], hanchors, htargets, fun p hp => by
              simpa [intervalD, hiv] using hpos p hp⟩
          · obtain ⟨hiv', ha, ht, hpos'⟩ := ih (pushState full st s) y hy
            refine ⟨hiv', ?_, ?_, fun p hp => ?_⟩
            · simp only [pushState, List.contains_cons, Bool.or_eq_false_iff] at ha
              exact ha.2
            · simp only [pushState, List.contains_cons, Bool.or_eq_false_iff] at ht
              exact ht.2
            · exact hpos' p (by simp [pushState, hp])

theorem intervalGap_comm (p q : Nat × Nat) : intervalGap p q = intervalGap q p := by
  unfold intervalGap
  exact Nat.max_comm _ _

theorem intervalGap_disjoint {p q : Nat × Nat}
    (h : minSuggestionDistanceChars ≤ intervalGap p q) : p.2 ≤ q.1 ∨ q.2 ≤ p.1 := by
  unfold intervalGap minSuggestionDistanceChars at h
  rcases le_max_iff.mp h with h | h <;> omega

theorem suggCompat_symm {full : String} {a b : Suggestion}
    (h : SuggCompat full a b) : SuggCompat full b a := by
  obtain ⟨h1, h2, h3⟩ := h
  refine ⟨h1.symm, h2.symm, fun ib ia hb ha => ?_⟩
  obtain ⟨hg, hd⟩ := h3 ia ib ha hb
  exact ⟨intervalGap_comm ia ib ▸ hg, hd.symm⟩

/-- The dedup pass's output is pairwise compatible: distinct anchor keys,
distinct target keys, minimum-distance-separated non-overlapping intervals. -/
theorem dedupeGo_pairwise (full : String) :
    ∀ (l : List Suggestion) (st : DedupState),
      (dedupeGo full l st).Pairwise (SuggCompat full) := by
  intro l
  induction l with
  | nil => intro st; simp [dedupeGo]
  | cons s rest ih =>
      intro st
      cases h : admitsState full st s with
      | false => rw [dedupeGo_cons_skip h]; exact ih st
      | true =>
          rw [dedupeGo_cons_accept h]
          refine List.Pairwise.cons (fun y hy => ?_) (ih _)
          obtain ⟨hiv, ha, ht, hpos⟩ := dedupeGo_mem_props full rest _ y hy
          have hsiv : intervalOf full s = some (intervalD full s) := by
            obtain ⟨_, _, iv, hiv', _⟩ := admitsState_iff.mp h
            simp [intervalD, hiv']
          refine ⟨?_, ?_, fun ia ib hsa hsb => ?_⟩
          · intro heq
            rw [← heq] at ha
            simp [pushState, List.contains_cons] at ha
          · intro heq
            rw [← heq] at ht
            simp [pushState, List.contains_cons] at ht
          · have hg := hpos (intervalD full s) (by simp [pushState])
            have hia : ia = intervalD full s := by
              rw [hsiv] at hsa; cases hsa; rfl
            have hib : ib = intervalD full y := by
              rcases ho : intervalOf full y with _ | iv
              · rw [ho] at hsb; cases hsb
              · rw [ho] at hsb; cases hsb; simp [intervalD, ho]
            subst hia; subst hib
            exact ⟨hg, intervalGap_disjoint hg⟩

/-- Splitting the dedup pass around an append: the tail is processed from the
state accumulated over the head. -/
theorem dedupeGo_append (full : String) :
    ∀ (p q : List Suggestion) (st : DedupState),
      dedupeGo full (p ++ q) st
        = dedupeGo full p st ++ dedupeGo full q (stateAfter full p st) := by
  intro p
  induction p with
  | nil => intro q st; simp [dedupeGo, stateAfter]
  | cons s rest ih =>
      intro q st
      cases h : admitsState full st s with
      | false =>
          rw [List.cons_append, dedupeGo_cons_skip h, dedupeGo_cons_skip h, ih]
          simp [stateAfter, h]
      | true =>
          rw [List.cons_append, dedupeGo_cons_accept h, dedupeGo_cons_accept h, ih]
          simp [stateAfter, h]

/-! ## The locator fold -/

theorem locStep_not_contains {ct : String} {n : HNode} (acc : Option HNode)
    (hc : containsStr (textContent n) ct = false) : locStep ct acc n = acc := by
  simp [locStep, hc]

theorem locStep_none_contains {ct : String} {n : HNode}
    (hc : containsStr (textContent n) ct = true) : locStep ct none n = some n := by
  simp [locStep, hc]

theorem locStep_some_lt {ct : String} {n b : HNode}
    (hc : containsStr (textContent n) ct = true)
    (hlt : (textContent n).length < (textContent b).length) :
    locStep ct (some b) n = some n := by
  simp [locStep, hc, hlt]

theorem locStep_some_ge {ct : String} {n b : HNode}
    (hc : containsStr (textContent n) ct = true)
    (hge : ¬ (textContent n).length < (textContent b).length) :
    locStep ct (some b) n = some b := by
  simp [locStep, hc, hge]

/-- Invariant of the locator fold: a `none` result means nothing contained the
clean text; a `some` result is either the carried accumulator or a containing
node from the list, its length bounds the accumulator's and every containing
node's. -/
theorem locate_fold_spec (ct : String) :
    ∀ (ns : List HNode) (acc : Option HNode),
      (ns.foldl (locStep ct) acc = none →
        acc = none ∧ ∀ n ∈ ns, containsStr (textContent n) ct = false) ∧
      (∀ el, ns.foldl (locStep ct) acc = some el →
        (acc = some el ∨ (el ∈ ns ∧ containsStr (textContent el) ct = true)) ∧
        (∀ b, acc = some b → (textContent el).length ≤ (textContent b).length) ∧
        (∀ n ∈ ns, containsStr (textContent n) ct = true →
          (textContent el).length ≤ (textContent n).length)) := by
  intro ns
  induction ns with
  | nil =>
      intro acc
      refine ⟨fun h => ⟨by simpa using h, by simp⟩, fun el h => ?_⟩
      simp only [List.foldl_nil] at h
      refine ⟨Or.inl h, fun b hb => ?_, by simp⟩
      rw [h] at hb
      cases hb
      exact Nat.le_refl _
  | cons n ns ih =>
      intro acc
      have step := ih (locStep ct acc n)
      have hfold : (n :: ns).foldl (locStep ct) acc
          = ns.foldl (locStep ct) (locStep ct acc n) := List.foldl_cons _ _
      constructor
      · intro h
        rw [hfold] at h
        obtain ⟨hstep, hall⟩ := step.1 h
        cases hc : containsStr (textContent n) ct with
        | false =>
            rw [locStep_not_contains acc hc] at hstep
            refine ⟨hstep, fun m hm => ?_⟩
            rcases List.mem_cons.mp hm with rfl | hm
            · exact hc
            · exact hall m hm
        | true =>
            exfalso
            rcases acc with _ | b
            · rw [locStep_none_contains hc] at hstep
              cases hstep
            · rcases Nat.lt_or_ge (textContent n).length (textContent b).length
                with hlt | hge
              · rw [locStep_some_lt hc hlt] at hstep
                cases hstep
              · rw [locStep_some_ge hc (Nat.not_lt_of_le hge)] at hstep
                cases hstep
      · intro el h
        rw [hfold] at h
        obtain ⟨horig, haccmin, hmin⟩ := step.2 el h
        cases hc : containsStr (textContent n) ct with
        | false =>
            rw [locStep_not_contains acc hc] at horig haccmin
            refine ⟨?_, haccmin, fun m hm hcm => ?_⟩
            · rcases horig with hl | ⟨hmem, hcont⟩
              · exact Or.inl hl
              · exact Or.inr ⟨List.mem_cons_of_mem n hmem, hcont⟩
            · rcases List.mem_cons.mp hm with rfl | hm
              · rw [hc] at hcm; cases hcm
              · exact hmin m hm hcm
        | true =>
            rcases acc with _ | b
            · rw [locStep_none_contains hc] at horig haccmin
              have hlen : (textContent el).length ≤ (textContent n).length := by
                rcases horig with hl | _
                · cases hl; exact Nat.le_refl _
                · exact haccmin n rfl
              refine ⟨?_, fun b hb => Option.noConfusion hb, fun m hm hcm => ?_⟩
              · rcases horig with hl | ⟨hmem, hcont⟩
                · cases hl
                  exact Or.inr ⟨List.mem_cons_self _ _, hc⟩
                · exact Or.inr ⟨List.mem_cons_of_mem n hmem, hcont⟩
              · rcases List.mem_cons.mp hm with rfl | hm
                · exact hlen
                · exact hmin m hm hcm
            · rcases Nat.lt_or_ge (textContent n).length (textContent b).length
                with hlt | hge
              · rw [locStep_some_lt hc hlt] at horig haccmin
                have hlen : (textContent el).length ≤ (textContent n).length := by
                  rcases horig with hl | _
                  · cases hl; exact Nat.le_refl _
                  · exact haccmin n rfl
                refine ⟨?_, fun b' hb' => ?_, fun m hm hcm => ?_⟩
                · rcases horig with hl | ⟨hmem, hcont⟩
                  · cases hl
                    exact Or.inr ⟨List.mem_cons_self _ _, hc⟩
                  · exact Or.inr ⟨List.mem_cons_of_mem n hmem, hcont⟩
                · cases hb'
                  exact Nat.le_trans hlen (Nat.le_of_lt hlt)
                · rcases List.mem_cons.mp hm with rfl | hm
                  · exact hlen
                  · exact hmin m hm hcm
              · rw [locStep_some_ge hc (Nat.not_lt_of_le hge)] at horig haccmin
                have hlen : (textContent el).length ≤ (textContent b).length := by
                  rcases horig with hl | _
                  · cases hl; exact Nat.le_refl _
                  · exact haccmin b rfl
                refine ⟨?_, fun b' hb' => ?_, fun m hm hcm => ?_⟩
                · rcases horig with hl | ⟨hmem, hcont⟩
                  · exact Or.inl hl
                  · exact Or.inr ⟨List.mem_cons_of_mem n hmem, hcont⟩
                · cases hb'
                  exact hlen
                · rcases List.mem_cons.mp hm with rfl | hm
                  · exact Nat.le_trans hlen hge
                  · exact hmin m hm hcm

/-- The candidate locator characterized: a located node is a block node whose
text contains the clean text, of minimal text length among all such; `none`
means no block node contains the clean text. -/
theorem locateNode_spec (doc : HNode) (ct : String) :
    (locateNode doc ct = none →
      ∀ n ∈ blockNodes doc, containsStr (textContent n) ct = false) ∧
    (∀ el, locateNode doc ct = some el →
      el ∈ blockNodes doc ∧ containsStr (textContent el) ct = true ∧
      ∀ n ∈ blockNodes doc, containsStr (textContent n) ct = true →
        (textContent el).length ≤ (textContent n).length) := by
  have h := locate_fold_spec ct (blockNodes doc) none
  refine ⟨fun hn => (h.1 hn).2, fun el hel => ?_⟩
  obtain ⟨horig, _, hmin⟩ := h.2 el hel
  rcases horig with hbad | ⟨hmem, hcont⟩
  · cases hbad
  · exact ⟨hmem, hcont, hmin⟩

/-! ## Claim C1 — what acceptance guarantees about the anchor -/

/-- A successfully mapped candidate was located, and its anchor has an
eligible (case-insensitive, look-around-guarded) match in the located node's
inner markup. -/
theorem mapOne_spec {doc : HNode} {c s : Suggestion} (h : mapOne doc c = some s) :
    ∃ el, locateNode doc (cleanTextOf c.original_paragraph) = some el ∧
      s.anchor_text = c.anchor_text ∧
      ∃ i, eligibleAt c.anchor_text.data (innerHtml el).data i = true := by
  unfold mapOne at h
  by_cases hlen : (cleanTextOf c.original_paragraph).length < 10
  · rw [if_pos hlen] at h; cases h
  · rw [if_neg hlen] at h
    cases hloc : locateNode doc (cleanTextOf c.original_paragraph) with
    | none => rw [hloc] at h; cases h
    | some el =>
        rw [hloc] at h
        simp only [] at h
        cases hins : insertAnchor c.anchor_text c.target_url (innerHtml el) with
        | none =>
            rw [hins] at h
            simp only [] at h
            cases h
        | some newInner =>
            rw [hins] at h
            simp only [] at h
            cases h
            refine ⟨el, rfl, rfl, ?_⟩
            unfold insertAnchor at hins
            cases hf : findEligible c.anchor_text.data (innerHtml el).data with
            | none => rw [hf] at hins; cases hins
            | some i => exact ⟨i, (findIdxFrom_spec_some hf).1⟩

/-- Everything the batch pipeline returns is either a previously accepted
suggestion or descends from an input candidate that passed the field filter
and the mapping stage. -/
theorem processOutboundBatch_mem {doc : HNode} {full : String}
    {ex cands : List Suggestion} {s : Suggestion}
    (h : s ∈ processOutboundBatch doc full ex cands) :
    s ∈ ex ∨ ∃ c, c ∈ cands ∧ validFields c = true ∧ mapOne doc c = some s := by
  unfold processOutboundBatch at h
  have h1 := (sortByPos_perm full _).mem_iff.mp h
  have h2 := (dedupeGo_sublist full _ _).subset h1
  have h3 := (sortByScoreDesc_perm _).mem_iff.mp h2
  rcases List.mem_append.mp h3 with hex | hmap
  · exact Or.inl hex
  · obtain ⟨c, hcf, hco⟩ := List.mem_filterMap.mp hmap
    have hcv := List.mem_filter.mp hcf
    exact Or.inr ⟨c, hcv.1, hcv.2, hco⟩

set_option maxRecDepth 40000 in
/-- C1 counterexample: the pipeline accepts a candidate whose anchor text
`pricing plans` is *not* a verbatim case-sensitive substring of the located
node's text `Pricing Plans are flexible` (the engine's only anchor check is a
case-insensitive guarded match against the node's inner markup; the reduced
content is never consulted). -/
theorem anchor_not_verbatim_counterexample :
    (processOutboundBatch sampleDoc sampleFull [] [sampleCand]).map
        (fun s => s.anchor_text) = ["pricing plans"] ∧
      (locateNode sampleDoc (cleanTextOf sampleCand.original_paragraph)).map
        textContent = some "Pricing Plans are flexible" ∧
      containsStr "Pricing Plans are flexible" "pricing plans" = false := by
  decide

/-- C1 (amended): for every suggestion the pipeline accepts (beyond the
previously accepted ones), its anchor text has a case-insensitive,
look-around-guarded match somewhere in the located node's inner markup; no
case-sensitive containment in the node's text, and no containment in the
reduced content (which the validation stages never consult), is guaranteed. -/
theorem anchor_acceptance_amended (doc : HNode) (full : String)
    (ex cands : List Suggestion) (s : Suggestion)
    (h : s ∈ processOutboundBatch doc full ex cands) :
    s ∈ ex ∨ ∃ c, c ∈ cands ∧ validFields c = true ∧
      ∃ el, locateNode doc (cleanTextOf c.original_paragraph) = some el ∧
        s.anchor_text = c.anchor_text ∧
        ∃ i, eligibleAt s.anchor_text.data (innerHtml el).data i = true := by
  rcases processOutboundBatch_mem h with hex | ⟨c, hc, hv, hm⟩
  · exact Or.inl hex
  · obtain ⟨el, hel, heq, i, hi⟩ := mapOne_spec hm
    exact Or.inr ⟨c, hc, hv, el, hel, heq, i, heq ▸ hi⟩

set_option maxRecDepth 40000 in
/-- Witness for C1 (amended) at the fixture pipeline run. -/
theorem anchor_acceptance_amended_witness :
    (⟨"pricing plans", "http://ex.com/pricing", "<p>Pricing Plans are flexible</p>",
        "<p><a href=\"http://ex.com/pricing\">pricing plans</a> are flexible</p>",
        50⟩ : Suggestion) ∈ processOutboundBatch sampleDoc sampleFull [] [sampleCand] ∧
      ((⟨"pricing plans", "http://ex.com/pricing", "<p>Pricing Plans are flexible</p>",
        "<p><a href=\"http://ex.com/pricing\">pricing plans</a> are flexible</p>",
        50⟩ : Suggestion) ∈ ([] : List Suggestion) ∨
        ∃ c, c ∈ [sampleCand] ∧ validFields c = true ∧
          ∃ el, locateNode sampleDoc (cleanTextOf c.original_paragraph) = some el ∧
            (⟨"pricing plans", "http://ex.com/pricing",
              "<p>Pricing Plans are flexible</p>",
              "<p><a href=\"http://ex.com/pricing\">pricing plans</a> are flexible</p>",
              50⟩ : Suggestion).anchor_text = c.anchor_text ∧
            ∃ i, eligibleAt "pricing plans".data (innerHtml el).data i = true) :=
  ⟨by decide,
   anchor_acceptance_amended sampleDoc sampleFull [] [sampleCand] _ (by decide)⟩

/-! ## Claim C4 — anchor substitution and the link guard -/

theorem lowerList_length (l : List Char) : (lowerList l).length = l.length :=
  List.length_map l lowerChar

theorem eligibleAt_out_of_range {anchor s : List Char} (hne : anchor ≠ []) {i : Nat}
    (hi : s.length < i) : eligibleAt anchor s i = false := by
  have hdrop : (lowerList s).drop i = [] :=
    List.drop_eq_nil_of_le (by rw [lowerList_length]; omega)
  have hm : ciMatchesAt anchor s i = false := by
    unfold ciMatchesAt matchesAt
    rw [hdrop]
    cases hl : lowerList anchor with
    | nil => exact absurd (by simpa [lowerList] using hl) hne
    | cons c cs => simp [List.isPrefixOf]
  unfold eligibleAt
  rw [hm]
  rfl

/-- C4 counterexample: in a paragraph whose only occurrence of the anchor lies
strictly inside an existing `<a>` element (but not at its very start), the
engine still substitutes, nesting a new link inside the old one, instead of
excluding the suggestion as unplaceable. -/
theorem insertAnchor_counterexample :
    ciOccurrences "pricing plans" "<a href=\"/x\">see pricing plans</a>" = [17] ∧
      "<a href=\"/x\">see pricing plans</a>"
        = "<a href=\"/x\">see " ++ "pricing plans" ++ "</a>" ∧
      insertAnchor "pricing plans" "/pricing" "<a href=\"/x\">see pricing plans</a>"
        = some "<a href=\"/x\">see <a href=\"/pricing\">pricing plans</a></a>" := by
  decide

/-- C4 (amended): the insertion engine substitutes the first occurrence of the
anchor (case-insensitively) that passes the regex's look-around guards — not
immediately preceded by `>` or `href="`/`href='`, and not followed by a `>`
before any `<` — and returns no substitution exactly when no position passes;
the guards skip an occurrence at the very start of a link's text but do not
detect an occurrence deeper inside an existing link. -/
theorem insertAnchor_amended (anchor url inner : String) (hne : anchor.data ≠ []) :
    (insertAnchor anchor url inner = none ↔
      ∀ i, eligibleAt anchor.data inner.data i = false) ∧
    (∀ out, insertAnchor anchor url inner = some out →
      ∃ i, eligibleAt anchor.data inner.data i = true ∧
        (∀ j, j < i → eligibleAt anchor.data inner.data j = false) ∧
        out = String.mk (inner.data.take i ++ (anchorHtml anchor url).data
          ++ inner.data.drop (i + anchor.length))) := by
  constructor
  · constructor
    · intro h i
      unfold insertAnchor at h
      cases hf : findEligible anchor.data inner.data with
      | some j => rw [hf] at h; cases h
      | none =>
          by_cases hi : i ≤ inner.data.length
          · exact findIdxFrom_spec_none hf i (Nat.zero_le _) (by omega)
          · exact eligibleAt_out_of_range hne (by omega)
    · intro h
      unfold insertAnchor
      cases hf : findEligible anchor.data inner.data with
      | none => rfl
      | some j =>
          obtain ⟨hj, _, _⟩ := findIdxFrom_spec_some hf
          rw [h j] at hj
          cases hj
  · intro out h
    unfold insertAnchor at h
    cases hf : findEligible anchor.data inner.data with
    | none => rw [hf] at h; cases h
    | some j =>
        rw [hf] at h
        cases h
        obtain ⟨hj, _, hmin⟩ := findIdxFrom_spec_some hf
        exact ⟨j, hj, fun k hk => hmin k (Nat.zero_le _) hk, rfl⟩

/-- Witness for C4 (amended): an anchor at the very start of a link's text is
skipped everywhere (no eligible position — unplaceable), while an eligible
plain-text occurrence is substituted at its position. -/
theorem insertAnchor_amended_witness :
    (∀ i, eligibleAt "pricing plans".data "<a href=\"/x\">pricing plans</a>".data i
        = false) ∧
      (∃ i, eligibleAt "pricing plans".data "Our pricing plans are flexible".data i
          = true ∧
        (∀ j, j < i →
          eligibleAt "pricing plans".data "Our pricing plans are flexible".data j
            = false) ∧
        "Our <a href=\"/p\">pricing plans</a> are flexible"
          = String.mk ("Our pricing plans are flexible".data.take i
              ++ (anchorHtml "pricing plans" "/p").data
              ++ "Our pricing plans are flexible".data.drop
                  (i + "pricing plans".length))) :=
  ⟨(insertAnchor_amended "pricing plans" "/x2" "<a href=\"/x\">pricing plans</a>"
      (by decide)).1.mp (by decide),
   (insertAnchor_amended "pricing plans" "/p" "Our pricing plans are flexible"
      (by decide)).2 "Our <a href=\"/p\">pricing plans</a> are flexible" (by decide)⟩

/-! ## Claim C6 — the candidate locator -/

/-- C6 counterexample: the locator does not test containment of the
`claimedParagraph` itself, but of its tag-stripped, whitespace-trimmed
reduction: a claimed paragraph with a trailing space is located in a node
whose text does not contain the claimed paragraph verbatim. -/
theorem locateNode_counterexample :
    cleanTextOf "Hello brave world " = "Hello brave world" ∧
      (locateNode
          (HNode.elem "body" [] (HForest.ofList
            [HNode.elem "p" [] (HForest.ofList [HNode.text "xxHello brave worldyy"])]))
          (cleanTextOf "Hello brave world ")).map textContent
        = some "xxHello brave worldyy" ∧
      containsStr "xxHello brave worldyy" "Hello brave world " = false := by
  decide

/-- C6 (amended): the locator tests every block-level node's text for
containment of the *tag-stripped, whitespace-trimmed* claimed paragraph and
selects a containing node of minimal text length; if no node contains it —
or the cleaned text is shorter than 10 characters — the candidate is dropped
with no error (`mapOne` returns `none`). -/
theorem locateNode_amended (doc : HNode) (p : String) :
    (∀ el, locateNode doc (cleanTextOf p) = some el →
      el ∈ blockNodes doc ∧
      containsStr (textContent el) (cleanTextOf p) = true ∧
      ∀ n ∈ blockNodes doc, containsStr (textContent n) (cleanTextOf p) = true →
        (textContent el).length ≤ (textContent n).length) ∧
    (locateNode doc (cleanTextOf p) = none →
      ∀ n ∈ blockNodes doc, containsStr (textContent n) (cleanTextOf p) = false) ∧
    (∀ s : Suggestion, s.original_paragraph = p →
      locateNode doc (cleanTextOf p) = none → mapOne doc s = none) := by
  refine ⟨fun el hel => (locateNode_spec doc (cleanTextOf p)).2 el hel,
    fun hn => (locateNode_spec doc (cleanTextOf p)).1 hn,
    fun s hsp hn => ?_⟩
  unfold mapOne
  rw [hsp]
  split_ifs
  · rfl
  · rw [hn]

/-- Witness for C6 (amended) on the fixture document: the located paragraph
is a block node of minimal containing length, and an unlocatable paragraph
makes `mapOne` drop its candidate. -/
theorem locateNode_amended_witness :
    ((HNode.elem "p" [] (HForest.ofList [HNode.text "Pricing Plans are flexible"]))
          ∈ blockNodes sampleDoc ∧
        containsStr
          (textContent (HNode.elem "p" []
            (HForest.ofList [HNode.text "Pricing Plans are flexible"])))
          (cleanTextOf "Pricing Plans are flexible") = true ∧
        ∀ n ∈ blockNodes sampleDoc,
          containsStr (textContent n) (cleanTextOf "Pricing Plans are flexible") = true →
          (textContent (HNode.elem "p" []
            (HForest.ofList [HNode.text "Pricing Plans are flexible"]))).length
            ≤ (textContent n).length) ∧
      mapOne sampleDoc ⟨"a", "u", "no such paragraph here", "pw", 1⟩ = none :=
  ⟨(locateNode_amended sampleDoc "Pricing Plans are flexible").1
      (HNode.elem "p" [] (HForest.ofList [HNode.text "Pricing Plans are flexible"]))
      (by decide),
   (locateNode_amended sampleDoc "no such paragraph here").2.2
      ⟨"a", "u", "no such paragraph here", "pw", 1⟩ rfl (by decide)⟩

/-! ## Claim C2 — the pairwise separation invariant -/

/-- C2: every pair of suggestions in the batch pipeline's final accepted list
has distinct case-insensitive whitespace-trimmed anchor keys, distinct
normalized target URLs, and — whenever both claimed-paragraph intervals exist
in the original document string — a closest-edge gap of at least the
configured minimum distance (250 characters) and no overlap. -/
theorem processOutboundBatch_pairwise_separation (doc : HNode) (full : String)
    (existingSuggestions cands : List Suggestion) :
    (processOutboundBatch doc full existingSuggestions cands).Pairwise
        (SuggCompat full) ∧
      ∀ s ∈ processOutboundBatch doc full existingSuggestions cands,
        (intervalOf full s).isSome = true := by
  have h := dedupeGo_pairwise full
    (sortByScoreDesc (existingSuggestions ++ mapStage doc cands)) ⟨[], [], []⟩
  have hperm := sortByPos_perm full
    (dedupeRun full (sortByScoreDesc (existingSuggestions ++ mapStage doc cands)))
  refine ⟨(hperm.pairwise_iff (fun h' => suggCompat_symm h')).mpr h, fun s hs => ?_⟩
  have hmem := hperm.mem_iff.mp hs
  exact (dedupeGo_mem_props full _ _ s hmem).1

set_option maxRecDepth 40000 in
/-- Witness for C2 at the fixture run: the accepted suggestion's claimed
interval exists in the document string. -/
theorem processOutboundBatch_pairwise_separation_witness :
    (processOutboundBatch sampleDoc sampleFull [] [sampleCand]).Pairwise
        (SuggCompat sampleFull) ∧
      (intervalOf sampleFull
          ⟨"pricing plans", "http://ex.com/pricing",
            "<p>Pricing Plans are flexible</p>",
            "<p><a href=\"http://ex.com/pricing\">pricing plans</a> are flexible</p>",
            50⟩).isSome = true :=
  ⟨(processOutboundBatch_pairwise_separation sampleDoc sampleFull [] [sampleCand]).1,
   (processOutboundBatch_pairwise_separation sampleDoc sampleFull [] [sampleCand]).2
      _ (by decide)⟩

/-! ## Claim C3 — greedy conflict resolution -/

set_option maxRecDepth 40000 in
/-- C3 counterexample: on a descending-scored list `[a, b, c]` where `b`
collides spatially with `a` but `c` is compatible with both, the greedy pass
returns `[a, c]`, which is not a prefix of the list at all, while the maximal
prefix satisfying the three dedup conditions is `[a]`. -/
theorem dedupe_not_maximal_prefix :
    [dedupA.internal_link_score, dedupB.internal_link_score,
        dedupC.internal_link_score] = [90, 80, 70] ∧
      (dedupeRun dedupFull [dedupA, dedupB, dedupC]).map (fun s => s.anchor_text)
        = ["anchor alpha", "anchor gamma"] ∧
      (maximalPrefixModel dedupFull [dedupA, dedupB, dedupC]).map (fun s => s.anchor_text)
        = ["anchor alpha"] ∧
      dedupeRun dedupFull [dedupA, dedupB, dedupC]
        ≠ maximalPrefixModel dedupFull [dedupA, dedupB, dedupC] := by
  decide

/-- C3 (amended): the conflict resolver's output is the greedy *subsequence*
of the sorted input — not its maximal prefix: each element is admitted exactly
when it passes the three membership tests (and paragraph-occurrence test)
against the state accumulated so far; a rejected element is skipped without
influencing later decisions, so later compatible elements are still kept. -/
theorem dedupe_greedy_characterization (full : String) :
    (∀ l : List Suggestion, (dedupeRun full l).Sublist l) ∧
    (∀ p x q, admitsState full (stateAfter full p ⟨[], [], []⟩) x = false →
      dedupeRun full (p ++ x :: q) = dedupeRun full (p ++ q)) ∧
    (∀ p x q, admitsState full (stateAfter full p ⟨[], [], []⟩) x = true →
      dedupeRun full (p ++ x :: q)
        = dedupeRun full p
            ++ x :: dedupeGo full q
                (pushState full (stateAfter full p ⟨[], [], []⟩) x)) := by
  refine ⟨fun l => dedupeGo_sublist full l _, fun p x q h => ?_, fun p x q h => ?_⟩
  · show dedupeGo full (p ++ x :: q) _ = dedupeGo full (p ++ q) _
    rw [dedupeGo_append, dedupeGo_append, dedupeGo_cons_skip h]
  · show dedupeGo full (p ++ x :: q) _ = _
    rw [dedupeGo_append, dedupeGo_cons_accept h]
    rfl

set_option maxRecDepth 40000 in
/-- Witness for C3 (amended) on the fixture list: `b` is rejected against the
state left by `[a]`, and removing it does not change the output; `c` is
admitted against that same state. -/
theorem dedupe_greedy_characterization_witness :
    (dedupeRun dedupFull [dedupA, dedupB, dedupC]).Sublist [dedupA, dedupB, dedupC] ∧
      dedupeRun dedupFull [dedupA, dedupB, dedupC]
        = dedupeRun dedupFull [dedupA, dedupC] ∧
      dedupeRun dedupFull [dedupA, dedupC, dedupB]
        = dedupeRun dedupFull [dedupA]
            ++ dedupC :: dedupeGo dedupFull [dedupB]
                (pushState dedupFull (stateAfter dedupFull [dedupA] ⟨[], [], []⟩) dedupC) :=
  ⟨(dedupe_greedy_characterization dedupFull).1 [dedupA, dedupB, dedupC],
   (dedupe_greedy_characterization dedupFull).2.1 [dedupA] dedupB [dedupC]
     (by decide),
   (dedupe_greedy_characterization dedupFull).2.2 [dedupA] dedupC [dedupB]
     (by decide)⟩

/-! ## Claim C7 — per-candidate silent exclusion -/

set_option maxRecDepth 40000 in
/-- C7: every per-candidate failure is a silent exclusion of that candidate
alone — a candidate with a missing required field or that fails the
locator/insertion stage can be deleted from the batch without changing the
stage's output; a candidate rejected by the dedup pass can be deleted without
changing the pipeline's output; and the pipeline is a total function that can
return the empty list (here: a candidate whose claimed paragraph is too short
to locate yields an empty accepted set, with no exception to raise). -/
theorem processOutboundBatch_silent_exclusion :
    (∀ (doc : HNode) (l1 : List Suggestion) (x : Suggestion) (l2 : List Suggestion),
      validFields x = false ∨ mapOne doc x = none →
      mapStage doc (l1 ++ x :: l2) = mapStage doc (l1 ++ l2)) ∧
    (∀ (full : String) (p : List Suggestion) (x : Suggestion) (q : List Suggestion),
      admitsState full (stateAfter full p ⟨[], [], []⟩) x = false →
      dedupeRun full (p ++ x :: q) = dedupeRun full (p ++ q)) ∧
    (processOutboundBatch (HNode.elem "body" [] HForest.nil) "" []
        [⟨"a", "u", "cp", "pw", 1⟩] = []) := by
  refine ⟨fun doc l1 x l2 hx => ?_, fun full p x q h => ?_, by decide⟩
  · rcases hx with hv | hm
    · simp [mapStage, List.filter_append, hv]
    · by_cases hv : validFields x
      · simp [mapStage, List.filter_append, List.filterMap_append, hv, hm]
      · simp [mapStage, List.filter_append, hv]
  · show dedupeGo full (p ++ x :: q) _ = dedupeGo full (p ++ q) _
    rw [dedupeGo_append, dedupeGo_append, dedupeGo_cons_skip h]

set_option maxRecDepth 40000 in
/-- Witness for C7: dropping a candidate with an empty anchor field, and
dropping a dedup-rejected suggestion, each leave the output unchanged. -/
theorem processOutboundBatch_silent_exclusion_witness :
    mapStage sampleDoc ([] ++ ⟨"", "u", "cp", "pw", 1⟩ :: [sampleCand])
        = mapStage sampleDoc ([] ++ [sampleCand]) ∧
      dedupeRun dedupFull ([dedupA] ++ dedupB :: [dedupC])
        = dedupeRun dedupFull ([dedupA] ++ [dedupC]) :=
  ⟨processOutboundBatch_silent_exclusion.1 sampleDoc [] ⟨"", "u", "cp", "pw", 1⟩
      [sampleCand] (Or.inl (by decide)),
   processOutboundBatch_silent_exclusion.2.1 dedupFull [dedupA] dedupB [dedupC]
      (by decide)⟩

/-! ## Claim C5 — the insertion engine's sanitizer -/

theorem sanitize_clean_list :
    ∀ ns : HForest, ∀ m ∈ allNodesF (stripAttrsF (removeBannedF ns)), CleanElem m
  | .nil => by
      simp [removeBannedF, stripAttrsF, allNodesF]
  | .cons (.text s) ns => by
      intro m hm
      rw [show stripAttrsF (removeBannedF (.cons (.text s) ns))
          = .cons (.text s) (stripAttrsF (removeBannedF ns)) by
        simp [removeBannedF, stripAttrsF, stripAttrs]] at hm
      rw [show allNodesF (.cons (.text s) (stripAttrsF (removeBannedF ns)))
          = .text s :: allNodesF (stripAttrsF (removeBannedF ns)) by
        simp [allNodesF, allNodes]] at hm
      rcases List.mem_cons.mp hm with rfl | hm
      · exact ⟨fun t ht => by simp [tagOf] at ht, fun pr hpr => by simp [attrsOf] at hpr⟩
      · exact sanitize_clean_list ns m hm
  | .cons (.elem t a cs) ns => by
      intro m hm
      cases hb : bannedTags.contains t with
      | true =>
          rw [show stripAttrsF (removeBannedF (.cons (.elem t a cs) ns))
              = stripAttrsF (removeBannedF ns) by
            simp only [removeBannedF]
            rw [if_pos (by simpa using hb)]] at hm
          exact sanitize_clean_list ns m hm
      | false =>
          rw [show stripAttrsF (removeBannedF (.cons (.elem t a cs) ns))
              = .cons (.elem t (a.filter (fun p => lowerStr p.1 == "href"))
                  (stripAttrsF (removeBannedF cs))) (stripAttrsF (removeBannedF ns)) by
            simp only [removeBannedF]
            rw [if_neg (by simpa using hb)]
            simp [stripAttrsF, stripAttrs]] at hm
          rw [show allNodesF (.cons (.elem t (a.filter (fun p => lowerStr p.1 == "href"))
                  (stripAttrsF (removeBannedF cs))) (stripAttrsF (removeBannedF ns)))
              = .elem t (a.filter (fun p => lowerStr p.1 == "href"))
                  (stripAttrsF (removeBannedF cs))
                :: (allNodesF (stripAttrsF (removeBannedF cs))
                    ++ allNodesF (stripAttrsF (removeBannedF ns))) by
            simp [allNodesF, allNodes]] at hm
          rcases List.mem_cons.mp hm with rfl | hm
          · refine ⟨fun t' ht' => ?_, fun pr hpr => ?_⟩
            · simp only [tagOf] at ht'
              cases ht'
              exact hb
            · simp only [attrsOf] at hpr
              simpa using (List.mem_filter.mp hpr).2
          · rcases List.mem_append.mp hm with hm | hm
            · exact sanitize_clean_list cs m hm
            · exact sanitize_clean_list ns m hm

/-- C5: for every block-level node handed to the insertion engine (the locator
only yields `p`/`li`/`td`/`div` elements), every element of the sanitizer's
output — root and descendants — has no disallowed tag and carries no attribute
other than `href`; in particular no event-handler attribute survives. -/
theorem sanitizeNode_output_clean (n : HNode)
    (hroot : ∀ t, tagOf n = some t → blockTags.contains t = true) :
    ∀ m ∈ elemNodes (sanitizeNode n), CleanElem m := by
  intro m hm
  have hm' := (List.mem_filter.mp hm).1
  match n with
  | .text s =>
      simp only [sanitizeNode, removeBanned, stripAttrs, allNodes] at hm'
      simp only [List.mem_singleton] at hm'
      subst hm'
      exact ⟨fun t ht => by simp [tagOf] at ht, fun pr hpr => by simp [attrsOf] at hpr⟩
  | .elem t a cs =>
      have htag : blockTags.contains t = true := hroot t rfl
      have hnb : bannedTags.contains t = false := by
        have hmem : t ∈ blockTags := by simpa using htag
        fin_cases hmem <;> decide
      simp only [sanitizeNode, removeBanned, stripAttrs, allNodes, List.mem_cons] at hm'
      rcases hm' with rfl | hm'
      · refine ⟨fun t' ht' => ?_, fun pr hpr => ?_⟩
        · simp only [tagOf] at ht'
          cases ht'
          exact hnb
        · simp only [attrsOf] at hpr
          simpa using (List.mem_filter.mp hpr).2
      · exact sanitize_clean_list cs m hm'

/-- Witness for C5 on a paragraph containing a `script` child and `class` /
`onclick` attributes: after sanitization only the `p` root and the `a` child
remain, and the theorem yields their cleanliness. -/
theorem sanitizeNode_output_clean_witness :
    (elemNodes (sanitizeNode (HNode.elem "p" [("class", "x")] (HForest.ofList
        [HNode.elem "script" [] (HForest.ofList [HNode.text "evil()"]),
         HNode.elem "a" [("onclick", "h"), ("href", "/y")]
           (HForest.ofList [HNode.text "link"])])))).map tagOf
      = [some "p", some "a"] ∧
    CleanElem (HNode.elem "a" [("href", "/y")] (HForest.ofList [HNode.text "link"])) := by
  refine ⟨by decide, ?_⟩
  exact sanitizeNode_output_clean
    (HNode.elem "p" [("class", "x")] (HForest.ofList
      [HNode.elem "script" [] (HForest.ofList [HNode.text "evil()"]),
       HNode.elem "a" [("onclick", "h"), ("href", "/y")]
         (HForest.ofList [HNode.text "link"])]))
    (by intro t ht; cases ht; decide)
    (HNode.elem "a" [("href", "/y")] (HForest.ofList [HNode.text "link"]))
    (by decide)

end NexusFlow
